import Mathlib

/-
Verification of the density-estimation library (kde_lib.py / exp_lib.py).

The numeric embedding uses exact rationals (ℚ) for IEEE doubles.  Calls into
external numeric routines that produce transcendental values are abstracted as
explicit function parameters, so every theorem below quantifies over them:
  - np.sqrt               -> a parameter `sq : ℚ → ℚ` (only ever applied to the
                             squared-distance vector t),
  - the Gaussian kernel / sklearn scorers (np.exp, π)
                          -> kernel-value and scorer parameters,
  - np.random / scipy     -> explicit permutation / distance parameters.
Rational division is Lean's total division (x / 0 = 0), standing in for the
IEEE behaviour away from degenerate zero denominators.

Vectors are `List ℚ` (numpy column vectors of shape (n, 1) flattened), matrices
are row-major `List (List ℚ)`.
-/

/-- Dot product of two rational vectors. -/
def dot (v w : List ℚ) : ℚ := (List.zipWith (fun x y => x * y) v w).sum

/-- Matrix-vector product `np.dot(Km, w)` for a row-major matrix. -/
def matVec (M : List (List ℚ)) (w : List ℚ) : List ℚ := M.map (fun row => dot row w)

/-- `np.diag(Km)`: the diagonal of a square matrix. -/
def diagOf (M : List (List ℚ)) : List ℚ :=
  (List.range M.length).map (fun i => (M.getD i []).getD i 0)

/-- The scalar `w^T Km w` (`t3` in `irls`). -/
def quadForm (M : List (List ℚ)) (w : List ℚ) : ℚ := dot w (matVec M w)

/-- The vector `t = diag(Km) - 2*Km.w + w^T Km w` computed twice inside `irls`. -/
def tvec (Km : List (List ℚ)) (w : List ℚ) : List ℚ :=
  List.zipWith (fun d kv => d - 2 * kv + quadForm Km w) (diagOf Km) (matVec Km w)

/-- `norm = np.sqrt(t)` as computed by `irls`; `sq` abstracts `np.sqrt`. -/
def normFromW (sq : ℚ → ℚ) (Km : List (List ℚ)) (w : List ℚ) : List ℚ :=
  (tvec Km w).map sq

/-- `kde_lib.rho`.  The Python body is a sequence of independent `if typ == ...`
blocks ending in `return L / x.shape[0]`; the branches for `huber`, `hampel`
and `abs` assign `L`, the `square` branch assigns only `t = x**2` and leaves
`L` unbound, so calling `rho` with `typ='square'` (or any unknown `typ`) raises
an UnboundLocalError at the `return`: modelled as `none`. -/
def rho (x : List ℚ) (typ : String) (a b c : ℚ) : Option ℚ :=
  if typ = "huber" then
    some ((((x.filter (fun v => decide (v ≤ a))).map (fun v => v ^ 2 / 2)).sum +
           ((x.filter (fun v => decide (a < v))).map (fun v => v * a - a ^ 2 / 2)).sum)
          / (x.length : ℚ))
  else if typ = "hampel" then
    some ((((x.filter (fun v => decide (v < a))).map (fun v => v ^ 2 / 2)).sum +
           ((x.filter (fun v => decide (a ≤ v ∧ v < b))).map (fun v => a * v - a ^ 2 / 2)).sum +
           ((x.filter (fun v => decide (b ≤ v ∧ v < c))).map
             (fun v => a * (v - c) ^ 2 / (2 * (b - c)) + a * (b + c - a) / 2)).sum +
           ((x.filter (fun v => decide (c ≤ v))).map (fun _ => a * (b + c - a) / 2)).sum)
          / (x.length : ℚ))
  else if typ = "square" then none
  else if typ = "abs" then some ((x.map (fun v => |v|)).sum / (x.length : ℚ))
  else none

/-- `kde_lib.loss`: `rho(x, ...) / x.shape[0]` (note: `rho` already divides by
`x.shape[0]`, so `loss` divides by the length twice). -/
def loss (x : List ℚ) (typ : String) (a b c : ℚ) : Option ℚ :=
  (rho x typ a b c).map (fun L => L / (x.length : ℚ))

/-- The per-point value of the piecewise loss ρ, read off from the branch
formulas of `rho` applied to a single entry.  Used to state what "mean of ρ
over the per-point norms" means. -/
def rhoPoint (typ : String) (a b c v : ℚ) : ℚ :=
  if typ = "huber" then (if v ≤ a then v ^ 2 / 2 else v * a - a ^ 2 / 2)
  else if typ = "hampel" then
    (if v < a then v ^ 2 / 2
     else if v < b then a * v - a ^ 2 / 2
     else if v < c then a * (v - c) ^ 2 / (2 * (b - c)) + a * (b + c - a) / 2
     else a * (b + c - a) / 2)
  else if typ = "square" then v ^ 2
  else if typ = "abs" then |v|
  else 0

/-- `kde_lib.psi`.  For `huber` the result is `np.minimum(x, a)` (elementwise,
index-aligned); for `hampel` the Python code concatenates the four boolean-mask
selections `x[x<a]`, `x[a<=x<b]`, `x[b<=x<c]`, `x[c<=x]` in that group order,
so the output is ordered by group, not by original index; for `square` it is
`2*x`; for `abs` the scalar `1` (`Sum.inl`); an unknown `typ` falls off the end
of the function and returns Python `None`: modelled as `none`. -/
def psi (x : List ℚ) (typ : String) (a b c : ℚ) : Option (ℚ ⊕ List ℚ) :=
  if typ = "huber" then some (Sum.inr (x.map (fun v => min v a)))
  else if typ = "hampel" then
    some (Sum.inr ((x.filter (fun v => decide (v < a))) ++
      ((x.filter (fun v => decide (a ≤ v ∧ v < b))).map (fun _ => a)) ++
      ((x.filter (fun v => decide (b ≤ v ∧ v < c))).map (fun v => a * (c - v) / (c - b))) ++
      ((x.filter (fun v => decide (c ≤ v))).map (fun _ => (0 : ℚ)))))
  else if typ = "square" then some (Sum.inr (x.map (fun v => 2 * v)))
  else if typ = "abs" then some (Sum.inl 1)
  else none

/-- The per-point value of the influence function ψ, read off from the branch
formulas of `psi` applied to a single entry (the value the spec's
`w_i = ψ(norm_i)/norm_i` refers to). -/
def psiPoint (typ : String) (a b c v : ℚ) : ℚ :=
  if typ = "huber" then min v a
  else if typ = "hampel" then
    (if v < a then v else if v < b then a else if v < c then a * (c - v) / (c - b) else 0)
  else if typ = "square" then 2 * v
  else if typ = "abs" then 1
  else 0

/-- `kde_lib.phi`.  The statement `x[x == 0] = 10e-6` mutates the argument
array in place before the ratio `psi(x)/x` is formed, so the call has two
observable results: the new contents of the argument array (first component)
and the returned ratio (second component).  A scalar `psi` result (`abs`)
broadcasts over `x`; an array result divides elementwise, which in numpy
requires equal shapes (a mismatch raises: modelled as `none`). -/
def phi (x : List ℚ) (typ : String) (a b c : ℚ) : List ℚ × Option (List ℚ) :=
  let xg := x.map (fun v => if v = 0 then (1 : ℚ) / 100000 else v)
  (xg, match psi xg typ a b c with
    | some (Sum.inl s) => some (xg.map (fun v => s / v))
    | some (Sum.inr p) =>
        if p.length = xg.length then some (List.zipWith (fun pv v => pv / v) p xg) else none
    | none => none)

/-- The weight update performed once per `irls` loop iteration:
`w = phi(norm, ...)` followed by `w = w / np.sum(w)`. -/
def wUpdate (nrm : List ℚ) (typ : String) (a b c : ℚ) : Option (List ℚ) :=
  ((phi nrm typ a b c).2).map (fun w => w.map (fun v => v / w.sum))

/-- The stopping test of the `irls` loop: `np.abs(J - J_old) < (J_old * alpha)`
(note: the right-hand side is the signed `J_old`, not `|J_old|`). -/
def stopB (α Jold J : ℚ) : Bool := decide (|J - Jold| < Jold * α)

/-- One pass of the `irls` loop body: weight update, recomputation of `t` and
`norm` from the new weights, and the new loss value. -/
def irlsBody (Km : List (List ℚ)) (sq : ℚ → ℚ) (typ : String) (a b c : ℚ)
    (nrm : List ℚ) : Option (List ℚ × List ℚ × ℚ) :=
  (wUpdate nrm typ a b c).bind fun w =>
    (loss (normFromW sq Km w) typ a b c).map fun J2 => (w, normFromW sq Km w, J2)

/-- The `while not stop` loop of `irls`.  The fuel argument is the number of
iterations still allowed after the current one, so the loop entry with
iteration counter `count == 0` corresponds to fuel `max_it - 1` and the
Python test `count == max_it` to fuel `0`.  (For `max_it = 0` the Python test
`count == max_it` can never fire and the loop diverges; the model is used
with `max_it ≥ 1`, which matches every call site.) -/
def irlsGo (Km : List (List ℚ)) (sq : ℚ → ℚ) (typ : String) (a b c α : ℚ) :
    ℕ → List ℚ → ℚ → Option (List ℚ × List ℚ × List ℚ)
  | 0, nrm, _ =>
    (irlsBody Km sq typ a b c nrm).bind fun s => some (s.1, s.2.1, [s.2.2])
  | r + 1, nrm, J =>
    (irlsBody Km sq typ a b c nrm).bind fun s =>
      if stopB α J s.2.2 then some (s.1, s.2.1, [s.2.2])
      else (irlsGo Km sq typ a b c α r s.2.1 s.2.2).map fun t =>
        (t.1, t.2.1, s.2.2 :: t.2.2)

/-- `kde_lib.irls`: uniform initial weights `w = 1/n`, a first computation of
`t`, `norm` and `J`, then the reweighting loop.  Returns
`(w, norm, losses)` with `losses` the full loss trajectory `[J0, J1, ...]`. -/
def irls (Km : List (List ℚ)) (sq : ℚ → ℚ) (typ : String) (n : ℕ)
    (a b c α : ℚ) (max_it : ℕ) : Option (List ℚ × List ℚ × List ℚ) :=
  let w0 := List.replicate n ((1 : ℚ) / (n : ℚ))
  let nrm0 := normFromW sq Km w0
  (loss nrm0 typ a b c).bind fun J0 =>
    (irlsGo Km sq typ a b c α (max_it - 1) nrm0 J0).map fun r => (r.1, r.2.1, J0 :: r.2.2)

/-- `noEarlyB α ls` says that no consecutive pair of the loss trajectory `ls`
except possibly the last one satisfies the loop's stopping test: the loop never
missed a stop. -/
def noEarlyB (α : ℚ) : List ℚ → Bool
  | J0 :: J1 :: rest => (rest.isEmpty || !stopB α J0 J1) && noEarlyB α (J1 :: rest)
  | _ => true

/-- `lastStopB α ls` says that the last consecutive pair of the loss
trajectory `ls` satisfies the loop's stopping test. -/
def lastStopB (α : ℚ) : List ℚ → Bool
  | [J0, J1] => stopB α J0 J1
  | _ :: rest => lastStopB α rest
  | [] => false

/-- The spec's description of one weight update:
`w_i = ψ(norm_i) / norm_i`, renormalized so that the weights sum to one.
Modelled from the spec sentence, for comparison with `wUpdate`. -/
def specWeights (nrm : List ℚ) (typ : String) (a b c : ℚ) : List ℚ :=
  let p := nrm.map (fun v => psiPoint typ a b c v / v)
  p.map (fun v => v / p.sum)

/-- `np.sum(G, axis=0)`: the vector of column sums of `G`. -/
def colSums (G : List (List ℚ)) : List ℚ :=
  (List.range (G.headD []).length).map (fun j => (G.map (fun row => row.getD j 0)).sum)

/-- The linear term `q = -beta / X_data.shape[0] * np.sum(G, axis=0)` that
`spkde` passes to `cvxopt.solvers.qp`. -/
def spkdeQ (G : List (List ℚ)) (β : ℚ) (n : ℕ) : List ℚ :=
  (colSums G).map (fun s => -β / (n : ℚ) * s)

/-- The feasible set `spkde` submits: `G_solver = -I`, `h = 0` (so `a ≥ 0`)
and `A = 1^T`, `b = 1` (so `Σ a = 1`). -/
def QPFeasible (n : ℕ) (v : List ℚ) : Prop :=
  v.length = n ∧ v.sum = 1 ∧ ∀ x ∈ v, 0 ≤ x

/-- The objective `cvxopt.solvers.qp(P, q, ...)` minimizes (its documented
external contract): `(1/2)·xᵀPx + qᵀx`. -/
def cvxoptObjective (P : List (List ℚ)) (q : List ℚ) (v : List ℚ) : ℚ :=
  quadForm P v / 2 + dot q v

/-- The objective of the program `spkde` actually submits: `P := G` (the
Gaussian Gram matrix) and `q := spkdeQ G β n`. -/
def spkdeSolverObjective (G : List (List ℚ)) (β : ℚ) (n : ℕ) (v : List ℚ) : ℚ :=
  cvxoptObjective G (spkdeQ G β n) v

/-- Modelled from the spec: the objective as the spec words it,
`aᵀGa − β·(1/n)·1ᵀG·a`, for comparison with the submitted program. -/
def specQPObjective (G : List (List ℚ)) (β : ℚ) (n : ℕ) (v : List ℚ) : ℚ :=
  quadForm G v - β / (n : ℚ) * dot (colSums G) v

/-- The amended objective `aᵀGa − 2β·(1/n)·1ᵀG·a` (twice the solver
objective, hence with the same minimizers). -/
def amendedQPObjective (G : List (List ℚ)) (β : ℚ) (n : ℕ) (v : List ℚ) : ℚ :=
  quadForm G v - 2 * (β / (n : ℚ)) * dot (colSums G) v

/-- Being a solution of a QP over the simplex: feasible and minimizing `f`
among all feasible points. -/
def IsQPSolution (n : ℕ) (f : List ℚ → ℚ) (v : List ℚ) : Prop :=
  QPFeasible n v ∧ ∀ u, QPFeasible n u → f v ≤ f u

/-- The density accumulation loop at the end of `spkde` (and of the `spkde`
branch of `estimate_density`): `z[j] += a[i] * GG[i, j]`. -/
def spkdeZ (a : List ℚ) (GG : List (List ℚ)) (m : ℕ) : List ℚ :=
  (List.range m).map (fun j =>
    ((List.range a.length).map (fun i => a.getD i 0 * (GG.getD i []).getD j 0)).sum)

/-- The exit status reported by `cvxopt.solvers.qp` in `sol['status']`:
`optimal`, or `unknown` when the iteration limit was reached without
convergence, or an infeasibility certificate (in which case `sol['x']` is
`None`). -/
inductive QPStatus where
  | optimal
  | unknown
  | primalInfeasible
  | dualInfeasible
deriving DecidableEq

/-- The dictionary returned by `cvxopt.solvers.qp`: the status and the primal
point (absent for infeasibility certificates). -/
structure QPResult where
  status : QPStatus
  x : Option (List ℚ)

/-- The tail of `spkde` after `sol = solvers.qp(...)`: it reads `sol['x']`
only — `sol['status']` is never consulted — and builds the density from it.
If the solver returned `x = None`, the later `a[i] * GG[i, j]` multiplication
raises a TypeError (modelled `none`); any status with a present `x`,
including the non-converged `'unknown'`, yields a density array. -/
def spkdeAfterSolve (sol : QPResult) (GG : List (List ℚ)) (m : ℕ) :
    Option (List ℚ × List ℚ) :=
  match sol.x with
  | none => none
  | some a => some (spkdeZ a GG m, a)

/-- The density sklearn's fitted `KernelDensity` reports
(`np.exp(score_samples(...))`): the kernel mixture
`(1/n)·Σ_i k_h(x, x_i)`; the kernel value `kfun` abstracts the external
library's Gaussian kernel. -/
def skDensity (kfun : ℚ → List ℚ → List ℚ → ℚ) (h : ℚ) (data : List (List ℚ))
    (plot : List (List ℚ)) : List ℚ :=
  plot.map (fun x => (data.map (fun xi => kfun h x xi)).sum / (data.length : ℚ))

/-- `kde_lib.kde`: fit a `KernelDensity` on `X_data` with bandwidth `h` and
return the density at `X_plot`. -/
def kde (kfun : ℚ → List ℚ → List ℚ → ℚ) (X_data X_plot : List (List ℚ)) (h : ℚ) :
    List ℚ :=
  skDensity kfun h X_data X_plot

/-- `np.median` of a one-dimensional array: sort, take the middle element
(odd length) or the mean of the two middle elements (even length). -/
def medianQ (l : List ℚ) : ℚ :=
  if l.length % 2 = 1 then (l.insertionSort (· ≤ ·)).getD (l.length / 2) 0
  else ((l.insertionSort (· ≤ ·)).getD (l.length / 2 - 1) 0 +
        (l.insertionSort (· ≤ ·)).getD (l.length / 2) 0) / 2

/-- `np.median(z, axis=0)`: the per-evaluation-point median across the block
density vectors. -/
def pointwiseMedian (zs : List (List ℚ)) (m : ℕ) : List ℚ :=
  (List.range m).map (fun j => medianQ (zs.map (fun z => z.getD j 0)))

/-- Python's `min(..., key=...)`: the first element attaining the minimal key
(ties keep the earlier element). -/
def argminBy (f : List ℚ → ℚ) (l : List (List ℚ)) : Option (List ℚ) :=
  l.foldl (fun acc x =>
    match acc with
    | none => some x
    | some y => if f x < f y then some x else some y) none

/-- `np.trapz(y, x)` on one axis: the sum of the trapezoid areas. -/
def trapz (y x : List ℚ) : ℚ :=
  (List.zipWith (fun av dx => av * dx)
    (List.zipWith (fun y0 y1 => (y0 + y1) / 2) y y.tail)
    (List.zipWith (fun x0 x1 => x1 - x0) x x.tail)).sum

/-- `kde_lib.area_density`, embedded for the one-dimensional grids exercised
here: iterated `np.trapz` over the grid axes reduces to a single `trapz`
against the only coordinate axis. -/
def area_density (z : List ℚ) (grid : List (List ℚ)) : ℚ :=
  trapz z (grid.headD [])

/-- `kde_lib.mom_kde`.  `X_shuffle` is the randomly permuted copy of the
training sample (`np.random.shuffle` abstracted into an argument, related to
the data by a permutation hypothesis in the theorems), `K` the number of
blocks (the caller has already resolved `K='auto'`), `stdFn` abstracts
`np.std`, `mcArea` the Monte-Carlo `area_MC_mom` estimate used when no grid is
given, and `distFn` scipy's euclidean distance used by the geometric median.
An unrecognized `median` raises a ValueError: modelled `none`. -/
def mom_kde (kfun : ℚ → List ℚ → List ℚ → ℚ) (X_shuffle X_plot : List (List ℚ))
    (h : ℚ) (grid : Option (List (List ℚ))) (K : ℕ) (median : String) (norm : Bool)
    (h_std : Bool) (stdFn : List (List ℚ) → ℚ) (mcArea : ℚ)
    (distFn : List ℚ → List ℚ → ℚ) : Option (List ℚ) :=
  let n := X_shuffle.length
  let zs := (List.range K).map (fun k =>
    let blk := (X_shuffle.drop (k * (n / K))).take (n / K)
    skDensity kfun (if h_std then h * stdFn blk else h) blk X_plot)
  (if median = "pointwise" then some (pointwiseMedian zs X_plot.length)
   else if median = "geometric" then
     argminBy (fun z1 => (zs.map (fun z2 => distFn z1 z2)).sum) zs
   else none).map (fun z =>
    if norm then
      match grid with
      | none => z.map (fun v => v / mcArea)
      | some g => z.map (fun v => v / area_density z g)
    else z)

/-- The tagged model stored by `Density_model.fit` in `self.model`: a fitted
sklearn `KernelDensity` (abstracted as its scoring function), a list of
per-block fitted estimators, or a weight vector (`rkde` / `spkde`). -/
inductive FittedModel where
  | sk : (List (List ℚ) → List ℚ) → FittedModel
  | skList : List (List (List ℚ) → List ℚ) → FittedModel
  | weights : List ℚ → FittedModel

/-- The state of `exp_lib.Density_model` relevant to `fit` /
`estimate_density`: the algorithm name, bandwidth, last computed density,
fitted model and stored training data. -/
structure DensityModel where
  algo : String
  bandwidth : ℚ
  density : Option (List ℚ)
  model : FittedModel
  X_data : List (List ℚ)

/-- `Density_model.fit`: dispatch on `self.algo` over the six accepted names;
the results of the `kde_lib` calls are supplied as arguments (those functions
are modelled separately above); an unknown name raises
`ValueError('Wrong name of algo')`. -/
def Density_model_fit (m : DensityModel) (X : List (List ℚ))
    (kdeRes : List ℚ × (List (List ℚ) → List ℚ))
    (momRes : List ℚ × List (List (List ℚ) → List ℚ))
    (rkdeRes : List ℚ × List ℚ) (spkdeRes : List ℚ × List ℚ) :
    Except String DensityModel :=
  if m.algo = "kde" then
    .ok { m with density := some kdeRes.1, model := .sk kdeRes.2 }
  else if m.algo = "mom-kde" then
    .ok { m with density := some momRes.1, model := .skList momRes.2 }
  else if m.algo = "mom-geom-kde" then
    .ok { m with density := some momRes.1, model := .skList momRes.2 }
  else if m.algo = "rkde-hampel" then
    .ok { m with X_data := X, density := some rkdeRes.1, model := .weights rkdeRes.2 }
  else if m.algo = "rkde-huber" then
    .ok { m with X_data := X, density := some rkdeRes.1, model := .weights rkdeRes.2 }
  else if m.algo = "spkde" then
    .ok { m with X_data := X, density := some spkdeRes.1, model := .weights spkdeRes.2 }
  else .error "Wrong name of algo"

/-- Squared euclidean distance accumulated coordinate-wise, as the `rkde`
branch of `estimate_density` builds it. -/
def sqDist (u v : List ℚ) : ℚ := (List.zipWith (fun p q => (p - q) ^ 2) u v).sum

/-- `Density_model.estimate_density`: dispatch on `self.algo` over the four
names `'kde'`, `'mom-kde'`, `'rkde'`, `'spkde'`; any other name — including
the fit-time names `'rkde-hampel'`, `'rkde-huber'` and `'mom-geom-kde'` —
falls through to the final `else`, which only prints `'no algo specified'`
and leaves the state unchanged.  `gK` abstracts `gaussian_kernel`'s scalar
map on squared distances and `km` the external `rbf_kernel` matrix
(data rows × query columns, already scaled). -/
def estimate_density (gK : ℚ → ℚ)
    (km : List (List ℚ) → List (List ℚ) → ℚ → List (List ℚ))
    (m : DensityModel) (X : List (List ℚ)) : DensityModel :=
  if m.algo = "kde" then
    match m.model with
    | .sk f => { m with density := some (f X) }
    | _ => m
  else if m.algo = "mom-kde" then
    match m.model with
    | .skList fs => { m with density := some (pointwiseMedian (fs.map (fun f => f X)) X.length) }
    | _ => m
  else if m.algo = "rkde" then
    match m.model with
    | .weights w =>
        { m with
          density := some (X.map (fun x => dot (m.X_data.map (fun xd => gK (sqDist x xd))) w)) }
    | _ => m
  else if m.algo = "spkde" then
    match m.model with
    | .weights a => { m with density := some (spkdeZ a (km m.X_data X m.bandwidth) X.length) }
    | _ => m
  else m

/-- Summing a two-block boolean-mask decomposition (the `huber` masks
`x <= a` / `x > a`) equals a single pass with the pointwise conditional. -/
lemma filter_partition2_sum (a : ℚ) (f g : ℚ → ℚ) (x : List ℚ) :
    ((x.filter (fun v => decide (v ≤ a))).map f).sum +
      ((x.filter (fun v => decide (a < v))).map g).sum =
    (x.map (fun v => if v ≤ a then f v else g v)).sum := by
  induction x with
  | nil => simp
  | cons v xs ih =>
    by_cases h : v ≤ a
    · simp only [List.filter_cons, List.map_cons, List.sum_cons, h, decide_True,
        not_lt.mpr h, decide_False, Bool.false_eq_true, if_true, if_false,
        List.map_cons, List.sum_cons, if_pos h]
      rw [← ih]; ring
    · simp only [List.filter_cons, h, decide_False, lt_of_not_le h, decide_True,
        Bool.false_eq_true, if_true, if_false, List.map_cons, List.sum_cons, if_neg h]
      rw [← ih]; ring

/-- Summing the four-block boolean-mask decomposition used by the `hampel`
branches (`x < a`, `a <= x < b`, `b <= x < c`, `c <= x`) equals a single pass
with the pointwise nested conditional, provided the thresholds are ordered. -/
lemma filter_partition4_sum (a b c : ℚ) (hab : a ≤ b) (hbc : b ≤ c)
    (f1 f2 f3 f4 : ℚ → ℚ) (x : List ℚ) :
    ((x.filter (fun v => decide (v < a))).map f1).sum +
      ((x.filter (fun v => decide (a ≤ v ∧ v < b))).map f2).sum +
      ((x.filter (fun v => decide (b ≤ v ∧ v < c))).map f3).sum +
      ((x.filter (fun v => decide (c ≤ v))).map f4).sum =
    (x.map (fun v =>
      if v < a then f1 v else if v < b then f2 v else if v < c then f3 v else f4 v)).sum := by
  induction x with
  | nil => simp
  | cons v xs ih =>
    by_cases h1 : v < a
    · have h2 : ¬ (a ≤ v ∧ v < b) := fun hc => absurd h1 (not_lt.mpr hc.1)
      have h3 : ¬ (b ≤ v ∧ v < c) := fun hc => absurd (lt_of_lt_of_le h1 hab) (not_lt.mpr hc.1)
      have h4 : ¬ c ≤ v := not_le.mpr (lt_of_lt_of_le (lt_of_lt_of_le h1 hab) hbc)
      simp only [List.filter_cons, h1, h2, h3, h4, decide_True, decide_False, Bool.false_eq_true, and_self, and_true, true_and, and_false, false_and,
        if_true, if_false, List.map_cons, List.sum_cons, if_pos h1]
      rw [← ih]; ring
    · by_cases h2 : v < b
      · have ha : a ≤ v := not_lt.mp h1
        have hm2 : a ≤ v ∧ v < b := ⟨ha, h2⟩
        have h3 : ¬ (b ≤ v ∧ v < c) := fun hc => absurd h2 (not_lt.mpr hc.1)
        have h4 : ¬ c ≤ v := not_le.mpr (lt_of_lt_of_le h2 hbc)
        simp only [List.filter_cons, h1, hm2, h3, h4, decide_True, decide_False, Bool.false_eq_true, and_self, and_true, true_and, and_false, false_and,
          if_true, if_false, List.map_cons, List.sum_cons, if_neg h1, if_pos h2]
        rw [← ih]; ring
      · by_cases h3 : v < c
        · have hm3 : b ≤ v ∧ v < c := ⟨not_lt.mp h2, h3⟩
          have hm2 : ¬ (a ≤ v ∧ v < b) := fun hc => absurd hc.2 h2
          have h4 : ¬ c ≤ v := not_le.mpr h3
          simp only [List.filter_cons, h1, hm2, hm3, h4, decide_True, decide_False, Bool.false_eq_true, and_self, and_true, true_and, and_false, false_and,
            if_true, if_false, List.map_cons, List.sum_cons, if_neg h1, if_neg h2,
            if_pos h3]
          rw [← ih]; ring
        · have hm2 : ¬ (a ≤ v ∧ v < b) := fun hc => absurd hc.2 h2
          have hm3 : ¬ (b ≤ v ∧ v < c) := fun hc => absurd hc.2 h3
          have h4 : c ≤ v := not_lt.mp h3
          simp only [List.filter_cons, h1, hm2, hm3, h4, decide_True, decide_False, Bool.false_eq_true, and_self, and_true, true_and, and_false, false_and,
            if_true, if_false, List.map_cons, List.sum_cons, if_neg h1, if_neg h2,
            if_neg h3]
          rw [← ih]; ring

/-- The four `hampel` masks select every entry exactly once (ordered
thresholds), so the lengths of the four selections add up to the length of the
input: this is what makes the concatenated `psi` array have the same shape as
its input. -/
lemma filter_partition4_length (a b c : ℚ) (hab : a ≤ b) (hbc : b ≤ c) (x : List ℚ) :
    (x.filter (fun v => decide (v < a))).length +
      (x.filter (fun v => decide (a ≤ v ∧ v < b))).length +
      (x.filter (fun v => decide (b ≤ v ∧ v < c))).length +
      (x.filter (fun v => decide (c ≤ v))).length = x.length := by
  induction x with
  | nil => simp
  | cons v xs ih =>
    by_cases h1 : v < a
    · have h2 : ¬ (a ≤ v ∧ v < b) := fun hc => absurd h1 (not_lt.mpr hc.1)
      have h3 : ¬ (b ≤ v ∧ v < c) := fun hc => absurd (lt_of_lt_of_le h1 hab) (not_lt.mpr hc.1)
      have h4 : ¬ c ≤ v := not_le.mpr (lt_of_lt_of_le (lt_of_lt_of_le h1 hab) hbc)
      simp only [List.filter_cons, h1, h2, h3, h4, decide_True, decide_False, Bool.false_eq_true, and_self, and_true, true_and, and_false, false_and,
        if_true, if_false, List.length_cons]
      omega
    · by_cases h2 : v < b
      · have hm2 : a ≤ v ∧ v < b := ⟨not_lt.mp h1, h2⟩
        have h3 : ¬ (b ≤ v ∧ v < c) := fun hc => absurd h2 (not_lt.mpr hc.1)
        have h4 : ¬ c ≤ v := not_le.mpr (lt_of_lt_of_le h2 hbc)
        simp only [List.filter_cons, h1, hm2, h3, h4, decide_True, decide_False, Bool.false_eq_true, and_self, and_true, true_and, and_false, false_and,
          if_true, if_false, List.length_cons]
        omega
      · by_cases h3 : v < c
        · have hm3 : b ≤ v ∧ v < c := ⟨not_lt.mp h2, h3⟩
          have hm2 : ¬ (a ≤ v ∧ v < b) := fun hc => absurd hc.2 h2
          have h4 : ¬ c ≤ v := not_le.mpr h3
          simp only [List.filter_cons, h1, hm2, hm3, h4, decide_True, decide_False, Bool.false_eq_true, and_self, and_true, true_and, and_false, false_and,
            if_true, if_false, List.length_cons]
          omega
        · have hm2 : ¬ (a ≤ v ∧ v < b) := fun hc => absurd hc.2 h2
          have hm3 : ¬ (b ≤ v ∧ v < c) := fun hc => absurd hc.2 h3
          have h4 : c ≤ v := not_lt.mp h3
          simp only [List.filter_cons, h1, hm2, hm3, h4, decide_True, decide_False, Bool.false_eq_true, and_self, and_true, true_and, and_false, false_and,
            if_true, if_false, List.length_cons]
          omega

/-- C1: the claim states that for both `huber` and `hampel` the IRLS weight
update assigns `w_i = ψ(norm_i)/norm_i` (normalized) to the i-th point.  For
`hampel` this fails: `psi` concatenates the boolean-mask groups, so its output
is ordered by group, not by point index, and `phi` then divides the reordered
ψ values by the unreordered norms.  At norm = [3/2, 1/2] with a=1, b=2, c=3
the code produces [1/7, 6/7] while the spec formula gives [2/5, 3/5]. -/
theorem c1_hampel_update_misaligned :
    wUpdate [3/2, 1/2] "hampel" 1 2 3 = some [1/7, 6/7] ∧
    specWeights [3/2, 1/2] "hampel" 1 2 3 = [2/5, 3/5] ∧
    ([1/7, 6/7] : List ℚ) ≠ [2/5, 3/5] := by
  refine ⟨by norm_num +decide [wUpdate, phi, psi], by norm_num +decide [specWeights, psiPoint], ?_⟩
  norm_num

/-- C3 counterexample: the loss `J` computed by the solver is
`loss(norm) = rho(norm)/n = (1/n^2)·Σρ`, not the mean `(1/n)·Σρ`: at
norm = [2, 2] with `huber`, a = 1, the code computes J = 3/4 while the mean of
ρ over the norms is 3/2. -/
theorem c3_loss_not_mean_cex :
    loss [2, 2] "huber" 1 0 0 = some (3/4) ∧
    (rhoPoint "huber" 1 0 0 2 + rhoPoint "huber" 1 0 0 2) / 2 = 3/2 ∧
    (3/4 : ℚ) ≠ 3/2 := by
  refine ⟨by norm_num +decide [loss, rho], by norm_num +decide [rhoPoint], by norm_num⟩

/-- C3 amended: at every loss evaluation the solver computes
`J = (Σ_i ρ(norm_i)) / n / n`, i.e. 1/n times the mean of ρ over the per-point
norms (for `huber` and `abs` unconditionally, for `hampel` with ordered
thresholds, under which the four masks partition the vector). -/
theorem c3_loss_is_mean_over_n (x : List ℚ) (typ : String) (a b c : ℚ)
    (hty : typ = "huber" ∨ typ = "abs" ∨ (typ = "hampel" ∧ a ≤ b ∧ b ≤ c)) :
    loss x typ a b c =
      some ((x.map (rhoPoint typ a b c)).sum / (x.length : ℚ) / (x.length : ℚ)) := by
  rcases hty with h | h | ⟨h, hab, hbc⟩
  · subst h
    have hpt : rhoPoint "huber" a b c =
        fun v => if v ≤ a then v ^ 2 / 2 else v * a - a ^ 2 / 2 := by
      funext v; norm_num +decide [rhoPoint]
    rw [loss, rho, if_pos rfl, Option.map_some', hpt, ← filter_partition2_sum]
  · subst h
    have hpt : rhoPoint "abs" a b c = fun v => |v| := by
      funext v; norm_num +decide [rhoPoint]
    rw [loss, rho]
    rw [if_neg (by decide), if_neg (by decide), if_neg (by decide), if_pos rfl,
      Option.map_some', hpt]
  · subst h
    have hpt : rhoPoint "hampel" a b c = fun v =>
        if v < a then v ^ 2 / 2
        else if v < b then a * v - a ^ 2 / 2
        else if v < c then a * (v - c) ^ 2 / (2 * (b - c)) + a * (b + c - a) / 2
        else a * (b + c - a) / 2 := by
      funext v; norm_num +decide [rhoPoint]
    rw [loss, rho, if_neg (by decide), if_pos rfl, Option.map_some', hpt,
      ← filter_partition4_sum a b c hab hbc]

/-- C3 witness for the amended statement, at norm = [2] with `huber`, a = 1. -/
theorem c3_loss_is_mean_over_n_witness :
    loss [2] "huber" 1 0 0 = some ((([2] : List ℚ).map (rhoPoint "huber" 1 0 0)).sum / 1 / 1) := by
  have h := c3_loss_is_mean_over_n [2] "huber" 1 0 0 (Or.inl rfl)
  simpa using h

/-- C9: `rho` with `typ='square'` assigns `t = x**2` but never the returned
`L`, so the call raises an UnboundLocalError for every input vector, and every
`irls` run with loss shape `square` dies at its very first loss evaluation. -/
theorem c9_rho_square_error (x : List ℚ) (hx : x ≠ []) (a b c : ℚ) :
    rho x "square" a b c = none ∧
    ∀ (Km : List (List ℚ)) (sq : ℚ → ℚ) (n : ℕ) (α : ℚ) (max_it : ℕ),
      irls Km sq "square" n a b c α max_it = none := by
  have hr : ∀ y : List ℚ, rho y "square" a b c = none := fun y => by
    rw [rho, if_neg (by decide), if_neg (by decide), if_pos rfl]
  refine ⟨hr x, fun Km sq n α max_it => ?_⟩
  rw [irls]
  simp only [loss, hr, Option.map_none', Option.none_bind]

/-- C9 witness at the concrete vector [1] and a 1-point kernel matrix. -/
theorem c9_rho_square_error_witness :
    rho [1] "square" 0 0 0 = none ∧
    irls [[1]] (fun q => q) "square" 1 0 0 0 0 100 = none := by
  have h := c9_rho_square_error [1] (by simp) 0 0 0
  exact ⟨h.1, h.2 [[1]] (fun q => q) 1 0 100⟩

/-- C6 counterexample: with thresholds beyond every data value standing in for
b = c = +∞ (IEEE +inf compares the same way), `psi` for `hampel` returns the
group-reordered vector, which differs from `huber`'s index-aligned
`np.minimum(x, a)`; and `huber` with a beyond the data returns `x` itself,
which differs from the `square` shape's `2*x`. -/
theorem c6_psi_reduction_cex :
    psi [2, 1/2] "hampel" 1 1000 1000 = some (Sum.inr [1/2, 1]) ∧
    psi [2, 1/2] "huber" 1 1000 1000 = some (Sum.inr [1, 1/2]) ∧
    (some (Sum.inr [1/2, 1]) : Option (ℚ ⊕ List ℚ)) ≠ some (Sum.inr [1, 1/2]) ∧
    psi [1] "huber" 1000 0 0 = some (Sum.inr [1]) ∧
    psi [1] "square" 1000 0 0 = some (Sum.inr [2]) ∧
    (some (Sum.inr [1]) : Option (ℚ ⊕ List ℚ)) ≠ some (Sum.inr [2]) := by
  refine ⟨by norm_num +decide [psi, min_def], by norm_num +decide [psi, min_def], by norm_num,
    by norm_num +decide [psi, min_def], by norm_num +decide [psi], by norm_num⟩

/-- C6 amended: with b = c = M beyond every entry (the finite rendering of
b = c = +∞), the `hampel` influence function equals the `huber` one applied to
the group-stable reordering of x (entries below a first); and with a = M
beyond every entry (a = +∞), the `huber` influence function is the identity,
which is half of the `square` shape's `2*x`. -/
theorem c6_psi_reduction_amended (x : List ℚ) (a M : ℚ)
    (hpos : ∀ v ∈ x, 0 ≤ v) (hM : ∀ v ∈ x, v < M) :
    psi x "hampel" a M M =
      psi ((x.filter (fun v => decide (v < a))) ++ (x.filter (fun v => decide (a ≤ v))))
        "huber" a M M ∧
    psi x "huber" M 0 0 = some (Sum.inr x) ∧
    psi x "square" 0 0 0 = some (Sum.inr (x.map (fun v => 2 * v))) := by
  refine ⟨?_, ?_, by rw [psi, if_neg (by decide), if_neg (by decide), if_pos rfl]⟩
  · rw [psi, if_neg (by decide), if_pos rfl, psi, if_pos rfl]
    have h3 : x.filter (fun v => decide (M ≤ v ∧ v < M)) = [] := by
      apply List.filter_eq_nil_iff.mpr
      intro v _
      simp only [decide_eq_true_eq, not_and]
      intro hle hlt
      exact absurd hlt (not_lt.mpr hle)
    have h4 : x.filter (fun v => decide (M ≤ v)) = [] := by
      apply List.filter_eq_nil_iff.mpr
      intro v hv
      simp only [decide_eq_true_eq]
      exact not_le.mpr (hM v hv)
    have h2 : x.filter (fun v => decide (a ≤ v ∧ v < M)) = x.filter (fun v => decide (a ≤ v)) := by
      apply List.filter_congr
      intro v hv
      simp [hM v hv]
    have hmap1 : (x.filter (fun v => decide (v < a))).map (fun v => min v a) =
        x.filter (fun v => decide (v < a)) := by
      rw [List.map_congr_left, List.map_id]
      intro v hv
      have := List.of_mem_filter hv
      exact min_eq_left (le_of_lt (by simpa using this))
    have hmap2 : (x.filter (fun v => decide (a ≤ v))).map (fun v => min v a) =
        (x.filter (fun v => decide (a ≤ v))).map (fun _ => a) := by
      apply List.map_congr_left
      intro v hv
      have := List.of_mem_filter hv
      exact min_eq_right (by simpa using this)
    rw [h3, h4, h2, List.map_nil, List.map_nil, List.append_nil, List.append_nil,
      List.map_append, hmap1, hmap2]
  · rw [psi, if_pos rfl]
    have : x.map (fun v => min v M) = x := by
      rw [List.map_congr_left, List.map_id]
      intro v hv
      exact min_eq_left (le_of_lt (hM v hv))
    rw [this]

/-- C6 witness for the amended statement at x = [1/2, 3], a = 1, M = 1000. -/
theorem c6_psi_reduction_amended_witness :
    psi [1/2, 3] "hampel" 1 1000 1000 =
      psi ((([1/2, 3] : List ℚ).filter (fun v => decide (v < 1))) ++
        (([1/2, 3] : List ℚ).filter (fun v => decide (1 ≤ v)))) "huber" 1 1000 1000 ∧
    psi [1/2, 3] "huber" 1000 0 0 = some (Sum.inr [1/2, 3]) ∧
    psi [1/2, 3] "square" 0 0 0 = some (Sum.inr [1, 6]) := by
  have h := c6_psi_reduction_amended [1/2, 3] 1 1000 (by norm_num) (by norm_num)
  refine ⟨h.1, h.2.1, ?_⟩
  rw [h.2.2]
  norm_num

/-- For the shapes whose `rho` branch assigns `L` (all but `square`), every
loss evaluation succeeds. -/
lemma loss_isSome (typ : String) (a b c : ℚ)
    (hty : typ = "huber" ∨ typ = "abs" ∨ (typ = "hampel" ∧ a ≤ b ∧ b ≤ c))
    (y : List ℚ) : ∃ J, loss y typ a b c = some J := by
  rcases hty with h | h | ⟨h, _, _⟩ <;> subst h
  · exact ⟨_, by rw [loss, rho, if_pos rfl, Option.map_some']⟩
  · exact ⟨_, by rw [loss, rho, if_neg (by decide), if_neg (by decide), if_neg (by decide),
      if_pos rfl, Option.map_some']⟩
  · exact ⟨_, by rw [loss, rho, if_neg (by decide), if_pos rfl, Option.map_some']⟩

/-- For `huber` and `abs` (any thresholds) and `hampel` with ordered
thresholds, the `psi(x)/x` division inside `phi` is between arrays of equal
shape, so the weight update always succeeds. -/
lemma wUpdate_isSome (typ : String) (a b c : ℚ)
    (hty : typ = "huber" ∨ typ = "abs" ∨ (typ = "hampel" ∧ a ≤ b ∧ b ≤ c))
    (nrm : List ℚ) : ∃ w, wUpdate nrm typ a b c = some w := by
  rcases hty with h | h | ⟨h, hab, hbc⟩ <;> subst h
  · rw [← Option.isSome_iff_exists]
    simp only [wUpdate, phi, psi, if_pos rfl, List.length_map, eq_self_iff_true, if_true,
      Option.map_some', Option.isSome_some]
  · rw [← Option.isSome_iff_exists]
    simp only [wUpdate, phi, psi, show (("abs" : String) = "huber") = False from by decide,
      show (("abs" : String) = "hampel") = False from by decide,
      show (("abs" : String) = "square") = False from by decide, if_false,
      eq_self_iff_true, if_true, Option.map_some', Option.isSome_some]
  · rw [← Option.isSome_iff_exists]
    have hlen := filter_partition4_length a b c hab hbc
      (nrm.map (fun v => if v = 0 then (1 : ℚ) / 100000 else v))
    rw [List.length_map] at hlen
    simp only [wUpdate, phi, psi, show (("hampel" : String) = "huber") = False from by decide,
      if_false, eq_self_iff_true, if_true, List.length_append, List.length_map]
    rw [if_pos hlen, Option.map_some', Option.isSome_some]

/-- The default value of `getLastD` is irrelevant on a nonempty list. -/
lemma getLastD_irrel {l : List ℚ} (h : l ≠ []) (d1 d2 : ℚ) :
    l.getLastD d1 = l.getLastD d2 := by
  cases l with
  | nil => exact absurd rfl h
  | cons x xs => rw [List.getLastD_cons, List.getLastD_cons]

/-- Whatever the loop body returns, its norm component is recomputed from its
weight component, and its loss component is the loss of that norm. -/
lemma irlsBody_shape (Km : List (List ℚ)) (sq : ℚ → ℚ) (typ : String) (a b c : ℚ)
    (nrm : List ℚ) (s : List ℚ × List ℚ × ℚ)
    (h : irlsBody Km sq typ a b c nrm = some s) :
    s.2.1 = normFromW sq Km s.1 ∧ loss s.2.1 typ a b c = some s.2.2 := by
  rw [irlsBody] at h
  rcases hw : wUpdate nrm typ a b c with _ | w
  · rw [hw] at h; simp at h
  · rw [hw, Option.some_bind'] at h
    rcases hl : loss (normFromW sq Km w) typ a b c with _ | J2
    · rw [hl, Option.map_none'] at h
      exact Option.noConfusion h
    · simp only [hl, Option.map_some', Option.some.injEq] at h
      rw [← h]
      exact ⟨rfl, hl⟩

/-- Structure of every `irlsGo` run with a loss shape whose updates and loss
evaluations succeed: the loop executes between `1` and `fuel + 1` body passes,
the returned norm is recomputed from the returned weights, the last trajectory
entry is the loss of that norm, the loop never misses a satisfied stopping
test (`noEarlyB`) and, if it used fewer than `fuel + 1` passes, the last pair
of losses satisfies the stopping test. -/
lemma irlsGo_spec (Km : List (List ℚ)) (sq : ℚ → ℚ) (typ : String) (a b c α : ℚ)
    (hty : typ = "huber" ∨ typ = "abs" ∨ (typ = "hampel" ∧ a ≤ b ∧ b ≤ c)) :
    ∀ (fuel : ℕ) (nrm : List ℚ) (J : ℚ),
      ∃ w n2 tl, irlsGo Km sq typ a b c α fuel nrm J = some (w, n2, tl) ∧
        1 ≤ tl.length ∧ tl.length ≤ fuel + 1 ∧
        n2 = normFromW sq Km w ∧
        loss n2 typ a b c = some (tl.getLastD 0) ∧
        noEarlyB α (J :: tl) = true ∧
        (tl.length < fuel + 1 → lastStopB α (J :: tl) = true) := by
  intro fuel
  induction fuel with
  | zero =>
    intro nrm J
    obtain ⟨w, hw⟩ := wUpdate_isSome typ a b c hty nrm
    obtain ⟨J2, hJ2⟩ := loss_isSome typ a b c hty (normFromW sq Km w)
    have hbody : irlsBody Km sq typ a b c nrm = some (w, normFromW sq Km w, J2) := by
      rw [irlsBody, hw, Option.some_bind']
      simp only [hJ2, Option.map_some']
    refine ⟨w, normFromW sq Km w, [J2],
      ?_, by simp, by simp, rfl, by simpa using hJ2, by simp [noEarlyB], ?_⟩
    · rw [show irlsGo Km sq typ a b c α 0 nrm J =
        (irlsBody Km sq typ a b c nrm).bind fun s => some (s.1, s.2.1, [s.2.2]) from rfl]
      rw [hbody, Option.some_bind']
    · intro hcontra
      simp at hcontra
  | succ f ih =>
    intro nrm J
    obtain ⟨w, hw⟩ := wUpdate_isSome typ a b c hty nrm
    obtain ⟨J2, hJ2⟩ := loss_isSome typ a b c hty (normFromW sq Km w)
    have hbody : irlsBody Km sq typ a b c nrm = some (w, normFromW sq Km w, J2) := by
      rw [irlsBody, hw, Option.some_bind']
      simp only [hJ2, Option.map_some']
    have hsucc : irlsGo Km sq typ a b c α (f + 1) nrm J =
        (irlsBody Km sq typ a b c nrm).bind fun s =>
          if stopB α J s.2.2 then some (s.1, s.2.1, [s.2.2])
          else (irlsGo Km sq typ a b c α f s.2.1 s.2.2).map fun t =>
            (t.1, t.2.1, s.2.2 :: t.2.2) := rfl
    by_cases hstop : stopB α J J2 = true
    · refine ⟨w, normFromW sq Km w, [J2],
        ?_, by simp, by simp, rfl, by simpa using hJ2, by simp [noEarlyB], ?_⟩
      · rw [hsucc, hbody, Option.some_bind']
        simp only [hstop, if_true]
      · intro _
        simp [lastStopB, hstop]
    · obtain ⟨w2, n3, tl2, hgo, ht1, ht2, ht3, ht4, ht5, ht6⟩ := ih (normFromW sq Km w) J2
      have htl2 : tl2 ≠ [] := by
        intro hnil
        rw [hnil] at ht1
        simp at ht1
      refine ⟨w2, n3, J2 :: tl2, ?_, by simp, ?_, ht3, ?_, ?_, ?_⟩
      · rw [hsucc, hbody, Option.some_bind', if_neg hstop, hgo, Option.map_some']
      · simp only [List.length_cons]
        omega
      · rw [List.getLastD_cons, getLastD_irrel htl2 J2 0]
        exact ht4
      · cases tl2 with
        | nil => exact absurd rfl htl2
        | cons t0 ts =>
          simp only [noEarlyB, List.isEmpty_cons, Bool.false_or, Bool.and_eq_true,
            Bool.not_eq_true'] at ht5 ⊢
          refine ⟨?_, ht5⟩
          simpa using hstop
      · intro hlen
        cases tl2 with
        | nil => exact absurd rfl htl2
        | cons t0 ts =>
          have hlt : (t0 :: ts).length < f + 1 := by
            simp only [List.length_cons] at hlen ⊢
            omega
          have hl := ht6 hlt
          simpa [lastStopB] using hl

/-- C7 counterexample: at `Km = [[1]]`, loss shape `huber` with threshold
a = -1 (thresholds are unconstrained in the claim), tolerance 1/10 and cap 3,
every loss is -1/2, so the claim's relative-improvement condition
`|J - J_prev| < eps * |J_prev|` holds already at the first update; the code's
test `|J - J_prev| < J_prev * alpha` compares against the signed (negative)
`J_prev` and never fires, so the run returns the full cap-length trajectory of
4 = max_it + 1 losses instead of stopping before the cap. -/
theorem c7_stop_condition_cex :
    irls [[1]] (fun q => q) "huber" 1 (-1) 0 0 (1/10) 3 =
      some ([1], [0], [-(1/2), -(1/2), -(1/2), -(1/2)]) ∧
    |(-(1/2) : ℚ) - (-(1/2))| < (1/10) * |(-(1/2) : ℚ)| := by
  constructor
  · have hb : irlsBody [[1]] (fun q => q) "huber" (-1) 0 0 [0] = some ([1], [0], -(1/2)) := by
      have h1 : wUpdate [0] "huber" (-1) 0 0 = some [1] := by
        norm_num +decide [wUpdate, phi, psi, min_def]
      have h2 : normFromW (fun q => q) [[1]] [1] = [0] := by
        norm_num +decide [normFromW, tvec, diagOf, matVec, quadForm, dot,
          List.range_succ, List.range_zero, List.getD_cons_zero, List.getD_cons_succ,
          List.getD_nil]
      have h3 : loss [0] "huber" (-1) 0 0 = some (-(1/2)) := by
        norm_num +decide [loss, rho]
      rw [irlsBody, h1, Option.some_bind']
      simp only [h2, h3, Option.map_some']
    have hs : stopB (1/10) (-(1/2)) (-(1/2)) = false := by
      norm_num [stopB]
    have h0 : normFromW (fun q => q) [[1]] (List.replicate 1 ((1:ℚ)/((1:ℕ):ℚ))) = [0] := by
      norm_num +decide [normFromW, tvec, diagOf, matVec, quadForm, dot,
        List.range_succ, List.range_zero, List.getD_cons_zero, List.getD_cons_succ,
        List.getD_nil, List.replicate_succ, List.replicate_zero]
    have hl : loss [0] "huber" (-1) 0 0 = some (-(1/2)) := by
      norm_num +decide [loss, rho]
    rw [irls]
    simp only [h0, hl, Option.some_bind']
    norm_num [irlsGo, hb, hs, Option.some_bind', Option.map_some']
  · norm_num

/-- C7 amended: for every kernel matrix, loss shape with a defined loss
(`huber`, `abs`, or `hampel` with ordered thresholds), tolerance and cap
`max_it ≥ 1`, `irls` performs between 1 and `max_it` weight updates and
returns the final weights, the norm vector recomputed from them, and the full
loss trajectory (initial loss plus one entry per update); it never runs past a
satisfied stopping test, and it stops before the cap exactly when
`|J - J_prev| < J_prev * alpha` (the signed `J_prev`, which agrees with the
claim's `eps * |J_prev|` whenever `J_prev ≥ 0`). -/
theorem c7_irls_termination_amended (Km : List (List ℚ)) (sq : ℚ → ℚ) (typ : String)
    (n : ℕ) (a b c α : ℚ) (max_it : ℕ)
    (hty : typ = "huber" ∨ typ = "abs" ∨ (typ = "hampel" ∧ a ≤ b ∧ b ≤ c))
    (hm : 1 ≤ max_it) :
    ∃ w nrm ls, irls Km sq typ n a b c α max_it = some (w, nrm, ls) ∧
      2 ≤ ls.length ∧ ls.length ≤ max_it + 1 ∧
      nrm = normFromW sq Km w ∧
      loss nrm typ a b c = some (ls.getLastD 0) ∧
      noEarlyB α ls = true ∧
      (ls.length ≤ max_it → lastStopB α ls = true) := by
  obtain ⟨J0, hJ0⟩ := loss_isSome typ a b c hty
    (normFromW sq Km (List.replicate n ((1:ℚ)/(n:ℚ))))
  obtain ⟨w, n2, tl, hgo, h1, h2, h3, h4, h5, h6⟩ :=
    irlsGo_spec Km sq typ a b c α hty (max_it - 1)
      (normFromW sq Km (List.replicate n ((1:ℚ)/(n:ℚ)))) J0
  have htl : tl ≠ [] := by
    intro hnil
    rw [hnil] at h1
    simp at h1
  refine ⟨w, n2, J0 :: tl, ?_, by simp only [List.length_cons]; omega, ?_, h3, ?_, h5, ?_⟩
  · rw [irls]
    simp only [hJ0, Option.some_bind', hgo, Option.map_some']
  · simp only [List.length_cons]
    omega
  · rw [List.getLastD_cons, getLastD_irrel htl J0 0]
    exact h4
  · intro hlen
    apply h6
    simp only [List.length_cons] at hlen
    omega

/-- C7 witness for the amended statement: a concrete `huber` run with
`Km = [[1]]`, a = 1, tolerance 1/10 and cap 2. -/
theorem c7_irls_termination_amended_witness :
    ∃ w nrm ls, irls [[1]] (fun q => q) "huber" 1 1 0 0 (1/10) 2 = some (w, nrm, ls) ∧
      2 ≤ ls.length ∧ ls.length ≤ 2 + 1 ∧
      nrm = normFromW (fun q => q) [[1]] w ∧
      loss nrm "huber" 1 0 0 = some (ls.getLastD 0) ∧
      noEarlyB (1/10) ls = true ∧
      (ls.length ≤ 2 → lastStopB (1/10) ls = true) :=
  c7_irls_termination_amended [[1]] (fun q => q) "huber" 1 1 0 0 (1/10) 2
    (Or.inl rfl) (by norm_num)

/-- Whatever `irlsGo` returns, the returned norm vector is the one recomputed
(from `t` and `sqrt`) after the final weight update. -/
lemma irlsGo_norm_fresh (Km : List (List ℚ)) (sq : ℚ → ℚ) (typ : String) (a b c α : ℚ) :
    ∀ (fuel : ℕ) (nrm : List ℚ) (J : ℚ) (w n2 : List ℚ) (tl : List ℚ),
      irlsGo Km sq typ a b c α fuel nrm J = some (w, n2, tl) →
      n2 = normFromW sq Km w := by
  intro fuel
  induction fuel with
  | zero =>
    intro nrm J w n2 tl h
    rw [show irlsGo Km sq typ a b c α 0 nrm J =
      (irlsBody Km sq typ a b c nrm).bind fun s => some (s.1, s.2.1, [s.2.2]) from rfl] at h
    rcases hb : irlsBody Km sq typ a b c nrm with _ | s
    · rw [hb] at h; simp at h
    · rw [hb, Option.some_bind'] at h
      simp only [Option.some.injEq, Prod.mk.injEq] at h
      obtain ⟨hw, hn, -⟩ := h
      rw [← hw, ← hn]
      exact (irlsBody_shape Km sq typ a b c nrm s hb).1
  | succ f ih =>
    intro nrm J w n2 tl h
    rw [show irlsGo Km sq typ a b c α (f + 1) nrm J =
      (irlsBody Km sq typ a b c nrm).bind fun s =>
        if stopB α J s.2.2 then some (s.1, s.2.1, [s.2.2])
        else (irlsGo Km sq typ a b c α f s.2.1 s.2.2).map fun t =>
          (t.1, t.2.1, s.2.2 :: t.2.2) from rfl] at h
    rcases hb : irlsBody Km sq typ a b c nrm with _ | s
    · rw [hb] at h; simp at h
    · rw [hb, Option.some_bind'] at h
      by_cases hstop : stopB α J s.2.2 = true
      · rw [if_pos hstop] at h
        simp only [Option.some.injEq, Prod.mk.injEq] at h
        obtain ⟨hw, hn, -⟩ := h
        rw [← hw, ← hn]
        exact (irlsBody_shape Km sq typ a b c nrm s hb).1
      · rw [if_neg hstop] at h
        rcases hg : irlsGo Km sq typ a b c α f s.2.1 s.2.2 with _ | t
        · rw [hg] at h; simp at h
        · rw [hg, Option.map_some'] at h
          simp only [Option.some.injEq, Prod.mk.injEq] at h
          obtain ⟨hw, hn, -⟩ := h
          rw [← hw, ← hn]
          exact ih s.2.1 s.2.2 t.1 t.2.1 t.2.2 (by rw [hg])

/-- C10 counterexample: a concrete `irls` run (`Km = [[1]]`, `huber`, a = 1,
cap 1) whose returned norm vector is `[0]`: the norm array the caller
receives is recomputed by `np.sqrt` after the last in-place mutation by `phi`
and can contain zero entries. -/
theorem c10_returned_norm_zero_cex :
    irls [[1]] (fun q => q) "huber" 1 1 0 0 (1/10) 1 = some ([1], [0], [0, 0]) ∧
    (0 : ℚ) ∈ ([0] : List ℚ) := by
  constructor
  · have hb : irlsBody [[1]] (fun q => q) "huber" 1 0 0 [0] = some ([1], [0], 0) := by
      have h1 : wUpdate [0] "huber" 1 0 0 = some [1] := by
        norm_num +decide [wUpdate, phi, psi, min_def]
      have h2 : normFromW (fun q => q) [[1]] [1] = [0] := by
        norm_num +decide [normFromW, tvec, diagOf, matVec, quadForm, dot,
          List.range_succ, List.range_zero, List.getD_cons_zero, List.getD_cons_succ,
          List.getD_nil]
      have h3 : loss [0] "huber" 1 0 0 = some 0 := by
        norm_num +decide [loss, rho]
      rw [irlsBody, h1, Option.some_bind']
      simp only [h2, h3, Option.map_some']
    have h0 : normFromW (fun q => q) [[1]] (List.replicate 1 ((1:ℚ)/((1:ℕ):ℚ))) = [0] := by
      norm_num +decide [normFromW, tvec, diagOf, matVec, quadForm, dot,
        List.range_succ, List.range_zero, List.getD_cons_zero, List.getD_cons_succ,
        List.getD_nil, List.replicate_succ, List.replicate_zero]
    have hl : loss [0] "huber" 1 0 0 = some 0 := by
      norm_num +decide [loss, rho]
    rw [irls]
    simp only [h0, hl, Option.some_bind']
    norm_num [irlsGo, hb, Option.some_bind', Option.map_some']
  · simp

/-- C10 amended: `phi` does overwrite every zero entry of its argument array
with 1e-5 in place (and the mutated array contains no zeros), but `irls`
recomputes `norm = sqrt(t)` from the new weights after each update, so the
norm vector `irls` returns is this freshly computed array, not the mutated
one, and it may contain zeros. -/
theorem c10_phi_mutation_amended :
    (∀ (x : List ℚ) (typ : String) (a b c : ℚ),
      (phi x typ a b c).1 = x.map (fun v => if v = 0 then (1 : ℚ) / 100000 else v) ∧
      (0 : ℚ) ∉ (phi x typ a b c).1) ∧
    (∀ (Km : List (List ℚ)) (sq : ℚ → ℚ) (typ : String) (n : ℕ) (a b c α : ℚ)
      (max_it : ℕ) (w nrm ls : List ℚ),
      irls Km sq typ n a b c α max_it = some (w, nrm, ls) →
      nrm = normFromW sq Km w) := by
  constructor
  · intro x typ a b c
    refine ⟨rfl, ?_⟩
    intro hmem
    rw [show (phi x typ a b c).1 =
      x.map (fun v => if v = 0 then (1 : ℚ) / 100000 else v) from rfl] at hmem
    obtain ⟨u, hu, hequ⟩ := List.mem_map.mp hmem
    by_cases h0 : u = 0
    · rw [if_pos h0] at hequ
      norm_num at hequ
    · rw [if_neg h0] at hequ
      exact h0 hequ
  · intro Km sq typ n a b c α max_it w nrm ls h
    rw [irls] at h
    rcases hJ : loss (normFromW sq Km (List.replicate n ((1:ℚ)/(n:ℚ)))) typ a b c with _ | J0
    · rw [hJ] at h; simp at h
    · rw [hJ, Option.some_bind'] at h
      rcases hg : irlsGo Km sq typ a b c α (max_it - 1)
          (normFromW sq Km (List.replicate n ((1:ℚ)/(n:ℚ)))) J0 with _ | r
      · rw [hg] at h; simp at h
      · rw [hg, Option.map_some'] at h
        simp only [Option.some.injEq, Prod.mk.injEq] at h
        obtain ⟨hw, hn, -⟩ := h
        rw [← hw, ← hn]
        exact irlsGo_norm_fresh Km sq typ a b c α (max_it - 1) _ J0 r.1 r.2.1 r.2.2
          (by rw [hg])

/-- C10 witness for the amended statement: the mutation facts at x = [0] and
the freshness of the returned norm on a concrete run. -/
theorem c10_phi_mutation_amended_witness :
    (phi [0] "huber" 1 0 0).1 = [(1 : ℚ) / 100000] ∧
    (0 : ℚ) ∉ (phi [0] "huber" 1 0 0).1 ∧
    ([0] : List ℚ) = normFromW (fun q => q) [[1]] [1] := by
  have h := c10_phi_mutation_amended
  have hi : irls [[1]] (fun q => q) "huber" 1 1 0 0 (1/10) 1 = some ([1], [0], [0, 0]) := by
    have hb : irlsBody [[1]] (fun q => q) "huber" 1 0 0 [0] = some ([1], [0], 0) := by
      have h1 : wUpdate [0] "huber" 1 0 0 = some [1] := by
        norm_num +decide [wUpdate, phi, psi, min_def]
      have h2 : normFromW (fun q => q) [[1]] [1] = [0] := by
        norm_num +decide [normFromW, tvec, diagOf, matVec, quadForm, dot,
          List.range_succ, List.range_zero, List.getD_cons_zero, List.getD_cons_succ,
          List.getD_nil]
      have h3 : loss [0] "huber" 1 0 0 = some 0 := by
        norm_num +decide [loss, rho]
      rw [irlsBody, h1, Option.some_bind']
      simp only [h2, h3, Option.map_some']
    have h0 : normFromW (fun q => q) [[1]] (List.replicate 1 ((1:ℚ)/((1:ℕ):ℚ))) = [0] := by
      norm_num +decide [normFromW, tvec, diagOf, matVec, quadForm, dot,
        List.range_succ, List.range_zero, List.getD_cons_zero, List.getD_cons_succ,
        List.getD_nil, List.replicate_succ, List.replicate_zero]
    have hl : loss [0] "huber" 1 0 0 = some 0 := by
      norm_num +decide [loss, rho]
    rw [irls]
    simp only [h0, hl, Option.some_bind']
    norm_num [irlsGo, hb, Option.some_bind', Option.map_some']
  refine ⟨?_, (h.1 [0] "huber" 1 0 0).2,
    h.2 [[1]] (fun q => q) "huber" 1 1 0 0 (1/10) 1 [1] [0] [0, 0] hi⟩
  rw [(h.1 [0] "huber" 1 0 0).1]
  norm_num

/-- Pulling a scalar factor out of the left argument of `dot`. -/
lemma dot_map_smul (k : ℚ) (l w : List ℚ) :
    dot (l.map (fun s => k * s)) w = k * dot l w := by
  induction l generalizing w with
  | nil => simp [dot]
  | cons s ls ih =>
    cases w with
    | nil => simp [dot]
    | cons y ys =>
      simp only [List.map_cons, dot, List.zipWith_cons_cons, List.sum_cons]
      have h := ih ys
      simp only [dot] at h
      rw [h]
      ring

/-- An index-summed product over `range v.length` with defaulting reads is the
dot product. -/
lemma range_sum_dot (v col : List ℚ) :
    ((List.range v.length).map (fun i => v.getD i 0 * col.getD i 0)).sum = dot v col := by
  induction v generalizing col with
  | nil => simp [dot]
  | cons x xs ih =>
    cases col with
    | nil =>
      simp only [dot, List.zipWith_nil_right, List.sum_nil]
      rw [List.length_cons, List.range_succ_eq_map]
      simp only [List.map_cons, List.map_map, List.sum_cons, List.getD_cons_zero]
      have h := ih ([] : List ℚ)
      simp only [dot, List.zipWith_nil_right, List.sum_nil] at h
      simp only [List.getD_nil]
      rw [show ((fun i => (x :: xs).getD i 0 * (0:ℚ)) ∘ Nat.succ) =
        (fun i => xs.getD i 0 * (0:ℚ)) from by funext i; simp [List.getD_cons_succ]]
      have h2 : ∀ l : List ℕ, (l.map (fun i => xs.getD i 0 * (0:ℚ))).sum =
          (l.map (fun i => xs.getD i 0 * [].getD i 0)).sum := by
        intro l
        apply congrArg
        apply List.map_congr_left
        intro i _
        simp [List.getD_nil]
      rw [h2, h]
      ring
    | cons y ys =>
      simp only [dot, List.zipWith_cons_cons, List.sum_cons]
      rw [List.length_cons, List.range_succ_eq_map]
      simp only [List.map_cons, List.map_map, List.sum_cons, List.getD_cons_zero]
      have h := ih ys
      simp only [dot] at h
      rw [show ((fun i => (x :: xs).getD i 0 * (y :: ys).getD i 0) ∘ Nat.succ) =
        (fun i => xs.getD i 0 * ys.getD i 0) from by
          funext i; simp [List.getD_cons_succ]]
      rw [h]

/-- Reading entry `i` of the mapped column extract equals the defaulted
two-step read. -/
lemma getD_map_row (GG : List (List ℚ)) (i j : ℕ) :
    (GG.map (fun row => row.getD j 0)).getD i 0 = (GG.getD i []).getD j 0 := by
  induction GG generalizing i with
  | nil => simp
  | cons r rs ih =>
    cases i with
    | zero => simp
    | succ k => simpa [List.getD_cons_succ] using ih k

/-- C4 amended: the program `spkde` submits to cvxopt has objective
`(1/2)aᵀGa − β(1/n)1ᵀGa`, i.e. exactly half of
`aᵀGa − 2β(1/n)1ᵀGa`, so its solutions are exactly the minimizers of the
latter over the simplex (not of the spec's `aᵀGa − β(1/n)1ᵀGa`); and the
returned density is the weighted kernel sum `z_j = Σ_i a_i·GG_{ij}`. -/
theorem c4_qp_objective_amended :
    (∀ (G : List (List ℚ)) (β : ℚ) (n : ℕ) (v : List ℚ),
      amendedQPObjective G β n v = 2 * spkdeSolverObjective G β n v) ∧
    (∀ (G : List (List ℚ)) (β : ℚ) (n : ℕ) (v : List ℚ),
      IsQPSolution n (spkdeSolverObjective G β n) v ↔
        IsQPSolution n (amendedQPObjective G β n) v) ∧
    (∀ (a : List ℚ) (GG : List (List ℚ)) (m : ℕ),
      spkdeZ a GG m =
        (List.range m).map (fun j => dot a (GG.map (fun row => row.getD j 0)))) := by
  have h2 : ∀ (G : List (List ℚ)) (β : ℚ) (n : ℕ) (v : List ℚ),
      amendedQPObjective G β n v = 2 * spkdeSolverObjective G β n v := by
    intro G β n v
    rw [amendedQPObjective, spkdeSolverObjective, cvxoptObjective, spkdeQ, dot_map_smul]
    ring
  refine ⟨h2, ?_, ?_⟩
  · intro G β n v
    constructor
    · rintro ⟨hf, hm⟩
      refine ⟨hf, fun u hu => ?_⟩
      have h := hm u hu
      rw [h2, h2]
      linarith
    · rintro ⟨hf, hm⟩
      refine ⟨hf, fun u hu => ?_⟩
      have h := hm u hu
      rw [h2, h2] at h
      linarith
  · intro a GG m
    rw [spkdeZ]
    apply List.map_congr_left
    intro j _
    rw [← range_sum_dot a (GG.map (fun row => row.getD j 0))]
    refine congrArg List.sum (List.map_congr_left ?_)
    intro i _
    rw [getD_map_row]

/-- C4 counterexample: with the Gram matrix
`G = [[1, 1/2, 1/16], [1/2, 1, 1/2], [1/16, 1/2, 1]]` (realized by three
collinear points and a bandwidth making the diagonal 1), β = 3 (outlier
fraction 2/3) and n = 3, the unique point the solver returns — the feasible
minimizer of the submitted objective `(1/2)aᵀGa + qᵀa` — is
`a = [1/17, 15/17, 1/17]`, but it is not a minimizer of the spec's program
`aᵀGa − β(1/n)1ᵀGa`: the feasible point `[1/4, 1/2, 1/4]` has strictly
smaller spec objective (−147/128 < −18/17). -/
theorem c4_qp_objective_cex :
    IsQPSolution 3
      (spkdeSolverObjective [[1, 1/2, 1/16], [1/2, 1, 1/2], [1/16, 1/2, 1]] 3 3)
      [1/17, 15/17, 1/17] ∧
    ¬ IsQPSolution 3
      (specQPObjective [[1, 1/2, 1/16], [1/2, 1, 1/2], [1/16, 1/2, 1]] 3 3)
      [1/17, 15/17, 1/17] := by
  have hs : colSums [[1, 1/2, 1/16], [1/2, 1, 1/2], [1/16, 1/2, 1]] = [25/16, 2, 25/16] := by
    norm_num [colSums, List.headD, List.range_succ, List.range_zero,
      List.getD_cons_zero, List.getD_cons_succ, List.getD_nil]
  have hquad : ∀ x y z : ℚ,
      quadForm [[1, 1/2, 1/16], [1/2, 1, 1/2], [1/16, 1/2, 1]] [x, y, z] =
        x^2 + y^2 + z^2 + x*y + x*z/8 + y*z := by
    intro x y z
    simp [quadForm, matVec, dot]
    ring
  have hsolver : ∀ x y z : ℚ,
      spkdeSolverObjective [[1, 1/2, 1/16], [1/2, 1, 1/2], [1/16, 1/2, 1]] 3 3 [x, y, z] =
        (x^2 + y^2 + z^2 + x*y + x*z/8 + y*z)/2 - (25/16*x + 2*y + 25/16*z) := by
    intro x y z
    have hq : spkdeQ [[1, 1/2, 1/16], [1/2, 1, 1/2], [1/16, 1/2, 1]] 3 3 =
        [-(25/16), -2, -(25/16)] := by
      rw [spkdeQ, hs]
      norm_num
    rw [spkdeSolverObjective, cvxoptObjective, hquad, hq]
    simp [dot]
    ring
  have hspec : ∀ x y z : ℚ,
      specQPObjective [[1, 1/2, 1/16], [1/2, 1, 1/2], [1/16, 1/2, 1]] 3 3 [x, y, z] =
        (x^2 + y^2 + z^2 + x*y + x*z/8 + y*z) - (25/16*x + 2*y + 25/16*z) := by
    intro x y z
    rw [specQPObjective, hquad, hs]
    simp [dot]
    ring
  constructor
  · refine ⟨⟨rfl, by norm_num, ?_⟩, ?_⟩
    · intro t ht
      simp at ht
      rcases ht with rfl | rfl | rfl <;> norm_num
    · intro u hu
      obtain ⟨x, y, z, rfl⟩ := List.length_eq_three.mp hu.1
      have hsum : x + y + z = 1 := by
        have hs3 := hu.2.1
        simp at hs3
        linarith
      rw [hsolver, hsolver]
      nlinarith [hsum, sq_nonneg (x - 1/17 + (y - 15/17)/2 + (z - 1/17)/16),
        sq_nonneg (y - 15/17 + 5*(z - 1/17)/8), sq_nonneg (z - 1/17)]
  · rintro ⟨hfeas, hmin⟩
    have hb : QPFeasible 3 [1/4, 1/2, 1/4] := by
      refine ⟨rfl, by norm_num, ?_⟩
      intro t ht
      simp at ht
      rcases ht with rfl | rfl | rfl <;> norm_num
    have h := hmin [1/4, 1/2, 1/4] hb
    rw [hspec, hspec] at h
    norm_num at h

/-- C8: `spkde` never reads `sol['status']`: the density it builds depends
only on `sol['x']`, so a non-converged solve (cvxopt status `'unknown'`, which
still carries the last iterate in `sol['x']`) silently produces a density
array instead of a propagated fatal error. -/
theorem c8_spkde_ignores_status :
    (∀ (st st2 : QPStatus) (xs : Option (List ℚ)) (GG : List (List ℚ)) (m : ℕ),
      spkdeAfterSolve ⟨st, xs⟩ GG m = spkdeAfterSolve ⟨st2, xs⟩ GG m) ∧
    spkdeAfterSolve ⟨QPStatus.unknown, some [1/2, 1/2]⟩ [[1], [1]] 1 =
      some ([1], [1/2, 1/2]) := by
  constructor
  · intro st st2 xs GG m
    cases xs <;> rfl
  · rw [spkdeAfterSolve]
    norm_num [spkdeZ, List.range_succ, List.range_zero, List.getD_cons_zero,
      List.getD_cons_succ, List.getD_nil]

/-- The median of a one-element sample is that element. -/
lemma medianQ_single (v : ℚ) : medianQ [v] = v := by
  rw [medianQ]
  norm_num

/-- Reading a list back through `range`-indexed defaulted gets is the
identity. -/
lemma range_map_getD (l : List ℚ) :
    (List.range l.length).map (fun j => l.getD j 0) = l := by
  induction l with
  | nil => simp
  | cons x xs ih =>
    rw [List.length_cons, List.range_succ_eq_map]
    simp only [List.map_cons, List.getD_cons_zero, List.map_map]
    rw [show ((fun j => (x :: xs).getD j 0) ∘ Nat.succ) = (fun j => xs.getD j 0) from by
      funext j; simp [List.getD_cons_succ]]
    rw [ih]

/-- Pointwise median aggregation of a single block density is that density. -/
lemma pointwiseMedian_single (z : List ℚ) : pointwiseMedian [z] z.length = z := by
  rw [pointwiseMedian]
  have h : ∀ j ∈ List.range z.length,
      medianQ ([z].map (fun zz => zz.getD j 0)) = z.getD j 0 := by
    intro j _
    simp only [List.map_cons, List.map_nil]
    exact medianQ_single _
  rw [List.map_congr_left h, range_map_getD]

/-- The sklearn mixture density only depends on the training sample as a
multiset: permuting the rows leaves it unchanged. -/
lemma skDensity_perm (kfun : ℚ → List ℚ → List ℚ → ℚ) (h : ℚ)
    (d1 d2 plot : List (List ℚ)) (hperm : d1.Perm d2) :
    skDensity kfun h d1 plot = skDensity kfun h d2 plot := by
  rw [skDensity, skDensity]
  apply List.map_congr_left
  intro x _
  rw [(hperm.map (fun xi => kfun h x xi)).sum_eq, hperm.length_eq]

/-- C5 amended: with normalization disabled, `mom_kde` with block count K = 1
and pointwise median returns exactly the Plain KDE density of the same
bandwidth (the single block is the whole shuffled sample, and the KDE mixture
is permutation invariant); with the default `norm=True` the aggregate is
additionally divided by the estimated area and generally differs. -/
theorem c5_mom_k1_eq_kde (kfun : ℚ → List ℚ → List ℚ → ℚ)
    (X_data X_shuffle X_plot : List (List ℚ)) (h : ℚ) (grid : Option (List (List ℚ)))
    (stdFn : List (List ℚ) → ℚ) (mcArea : ℚ) (distFn : List ℚ → List ℚ → ℚ)
    (hperm : X_shuffle.Perm X_data) :
    mom_kde kfun X_shuffle X_plot h grid 1 "pointwise" false false stdFn mcArea distFn =
      some (kde kfun X_data X_plot h) := by
  rw [mom_kde]
  simp only [List.range_succ, List.range_zero, List.map_append, List.map_cons,
    List.map_nil, List.nil_append, Nat.div_one, Nat.zero_mul, List.drop_zero,
    List.take_length, if_pos rfl, Bool.false_eq_true, if_false, Option.map_some']
  have hz : skDensity kfun h X_shuffle X_plot = kde kfun X_data X_plot h := by
    rw [kde]
    exact skDensity_perm kfun h X_shuffle X_data X_plot hperm
  have hlen : X_plot.length = (skDensity kfun h X_shuffle X_plot).length := by
    rw [skDensity, List.length_map]
  rw [hlen, pointwiseMedian_single, hz]
  simp

/-- C5 witness for the amended statement on a one-point sample. -/
theorem c5_mom_k1_eq_kde_witness :
    mom_kde (fun _ _ _ => (1 : ℚ)) [[0]] [[0]] 1 none 1 "pointwise" false false
      (fun _ => 0) 0 (fun _ _ => 0) =
      some (kde (fun _ _ _ => (1 : ℚ)) [[0]] [[0]] 1) :=
  c5_mom_k1_eq_kde (fun _ _ _ => (1 : ℚ)) [[0]] [[0]] [[0]] 1 none
    (fun _ => 0) 0 (fun _ _ => 0) (List.Perm.refl _)

/-- C5 counterexample: with the defaults (`norm=True`) and a grid, the K = 1
pointwise `mom_kde` divides by the trapezoidal area estimate (here 3/2) and
returns `[2/3, 1/3]` where the Plain KDE returns `[1, 1/2]`: the two density
arrays differ exactly, not merely up to floating tolerance. -/
theorem c5_mom_norm_cex :
    mom_kde (fun _ x y => if x = y then (1 : ℚ) else 1/2) [[0]] [[0], [2]] 1
      (some [[0, 2]]) 1 "pointwise" true false (fun _ => 0) 0 (fun _ _ => 0) =
      some [2/3, 1/3] ∧
    kde (fun _ x y => if x = y then (1 : ℚ) else 1/2) [[0]] [[0], [2]] 1 = [1, 1/2] ∧
    (some [2/3, 1/3] : Option (List ℚ)) ≠ some [1, 1/2] := by
  refine ⟨?_, ?_, by norm_num⟩
  · have hz : skDensity (fun _ x y => if x = y then (1 : ℚ) else 1/2) 1 [[0]] [[0], [2]] =
        [1, 1/2] := by
      norm_num [skDensity]
    rw [mom_kde]
    simp only [List.range_succ, List.range_zero, List.map_append, List.map_cons,
      List.map_nil, List.nil_append, Nat.div_one, Nat.zero_mul, List.drop_zero,
      List.take_length, if_pos rfl, Bool.false_eq_true, if_false, Option.map_some']
    rw [show ([[0], [2]] : List (List ℚ)).length = ([1, 1/2] : List ℚ).length from rfl]
    rw [hz, pointwiseMedian_single]
    norm_num [area_density, trapz, List.headD]
  · norm_num [kde, skDensity]

/-- C2: `Density_model.fit` accepts the name `'rkde-hampel'` and fits
successfully, but `estimate_density` dispatches only on `'kde'`, `'mom-kde'`,
`'rkde'` and `'spkde'`, so for a model fitted as `'rkde-hampel'` (likewise
`'rkde-huber'` and `'mom-geom-kde'`) it prints `'no algo specified'` and
returns with the stored state — in particular `self.density` — unchanged: a
silent no-op instead of an evaluation at the new points. -/
theorem c2_estimate_density_silent_noop :
    Density_model_fit
      { algo := "rkde-hampel", bandwidth := 1, density := none,
        model := .sk (fun _ => []), X_data := [] }
      [[0], [2]] ([1], fun _ => [1]) ([1], []) ([1], [1/2, 1/2]) ([1], [1/2, 1/2]) =
      .ok { algo := "rkde-hampel", bandwidth := 1, density := some [1],
            model := .weights [1/2, 1/2], X_data := [[0], [2]] } ∧
    ∀ (gK : ℚ → ℚ) (km : List (List ℚ) → List (List ℚ) → ℚ → List (List ℚ))
      (X : List (List ℚ)),
      estimate_density gK km
        { algo := "rkde-hampel", bandwidth := 1, density := some [1],
          model := .weights [1/2, 1/2], X_data := [[0], [2]] } X =
      { algo := "rkde-hampel", bandwidth := 1, density := some [1],
        model := .weights [1/2, 1/2], X_data := [[0], [2]] } := by
  constructor
  · rfl
  · intro gK km X
    rfl

